import Mathlib

/-
Verification development for the RLN (Rate-Limiting Nullifier) library.

The Rust sources are shallowly embedded:
* machine integers and big integers are `ℕ` with explicit `% 2 ^ w` where
  overflow matters;
* `Vec<Fr>` is `List F`; the BN254 scalar field element produced by
  `hash_to_field` is represented by its canonical residue, a `ℕ` below the
  modulus `rBN254` (equality of `Fr` values is equality of canonical
  residues);
* the Poseidon hash and the Merkle tree are generic over the underlying
  prime field, mirroring the Rust generics over `E: Engine`; theorems are
  stated over an arbitrary `CommRing`/`Field`;
* `&mut self` methods are state-passing functions returning the new state;
  a Rust `assert!`/panic is an `Option`/`Except` failure;
* fallible readers return `Except String`, with the error strings of the
  source.
-/

namespace Sha256

/-- Truncate to 32 bits. -/
def w32 (x : ℕ) : ℕ := x % 4294967296

/-- Rotate a 32-bit word right by `n` positions. -/
def rotr (n x : ℕ) : ℕ := w32 ((x >>> n) ||| (x <<< (32 - n)))

/-- Bitwise complement of a 32-bit word (the argument is below `2 ^ 32`). -/
def bnot32 (x : ℕ) : ℕ := 4294967295 - x

def ch (e f g : ℕ) : ℕ := (e &&& f) ^^^ (bnot32 e &&& g)

def maj (a b c : ℕ) : ℕ := (a &&& b) ^^^ (a &&& c) ^^^ (b &&& c)

def bigSigma0 (a : ℕ) : ℕ := rotr 2 a ^^^ rotr 13 a ^^^ rotr 22 a

def bigSigma1 (e : ℕ) : ℕ := rotr 6 e ^^^ rotr 11 e ^^^ rotr 25 e

def smallSigma0 (x : ℕ) : ℕ := rotr 7 x ^^^ rotr 18 x ^^^ (x >>> 3)

def smallSigma1 (x : ℕ) : ℕ := rotr 17 x ^^^ rotr 19 x ^^^ (x >>> 10)

/-- The 64 round constants of SHA-256 (FIPS 180-4), in decimal. -/
def roundK : List ℕ :=
  [1116352408, 1899447441, 3049323471, 3921009573, 961987163, 1508970993,
   2453635748, 2870763221, 3624381080, 310598401, 607225278, 1426881987,
   1925078388, 2162078206, 2614888103, 3248222580, 3835390401, 4022224774,
   264347078, 604807628, 770255983, 1249150122, 1555081692, 1996064986,
   2554220882, 2821834349, 2952996808, 3210313671, 3336571891, 3584528711,
   113926993, 338241895, 666307205, 773529912, 1294757372, 1396182291,
   1695183700, 1986661051, 2177026350, 2456956037, 2730485921, 2820302411,
   3259730800, 3345764771, 3516065817, 3600352804, 4094571909, 275423344,
   430227734, 506948616, 659060556, 883997877, 958139571, 1322822218,
   1537002063, 1747873779, 1955562222, 2024104815, 2227730452, 2361852424,
   2428436474, 2756734187, 3204031479, 3329325298]

/-- The eight-word initial digest of SHA-256 (FIPS 180-4), in decimal. -/
def initH : List ℕ :=
  [1779033703, 3144134277, 1013904242, 2773480762,
   1359893119, 2600822924, 528734635, 1541459225]

/-- One extension step of the message schedule: append the next word
(index at least 16), computed from the previous 16 words. -/
def extendStep (acc : List ℕ) : List ℕ :=
  let n := acc.length
  acc ++ [w32 (smallSigma1 (acc.getD (n - 2) 0) + acc.getD (n - 7) 0 +
               smallSigma0 (acc.getD (n - 15) 0) + acc.getD (n - 16) 0)]

/-- Full 64-word message schedule from the 16 words of one block. -/
def schedule (block : List ℕ) : List ℕ := extendStep^[48] block

/-- One compression round. The working state is the list `[a,b,c,d,e,f,g,h]`. -/
def compressRound (st : List ℕ) (kw : ℕ × ℕ) : List ℕ :=
  match st with
  | [a, b, c, d, e, f, g, h] =>
    let t1 := h + bigSigma1 e + ch e f g + kw.1 + kw.2
    let t2 := bigSigma0 a + maj a b c
    [w32 (t1 + t2), a, b, c, w32 (d + t1), e, f, g]
  | other => other

/-- Compress one 512-bit block (16 32-bit words) into the running digest. -/
def compressBlock (h : List ℕ) (block : List ℕ) : List ℕ :=
  let final := (roundK.zip (schedule block)).foldl compressRound h
  (h.zip final).map fun p => w32 (p.1 + p.2)

/-- Big-endian conversion of a byte list into 32-bit words (groups of 4). -/
def bytesToWords : List ℕ → List ℕ
  | a :: b :: c :: d :: rest => (((a * 256 + b) * 256 + c) * 256 + d) :: bytesToWords rest
  | _ => []

/-- 64-bit big-endian encoding of a number, as 8 bytes. -/
def be64 (n : ℕ) : List ℕ :=
  [n >>> 56 &&& 255, n >>> 48 &&& 255, n >>> 40 &&& 255, n >>> 32 &&& 255,
   n >>> 24 &&& 255, n >>> 16 &&& 255, n >>> 8 &&& 255, n &&& 255]

/-- 32-bit big-endian encoding of a word, as 4 bytes. -/
def be32 (n : ℕ) : List ℕ :=
  [n >>> 24 &&& 255, n >>> 16 &&& 255, n >>> 8 &&& 255, n &&& 255]

/-- SHA-256 padding: append `0x80`, zero bytes, and the 64-bit bit length. -/
def padMessage (msg : List ℕ) : List ℕ :=
  let L := msg.length
  msg ++ [128] ++ List.replicate ((119 - L % 64) % 64) 0 ++ be64 (8 * L)

/-- Process the padded byte stream block by block; `fuel` bounds the recursion
(the padded length is always a multiple of 64, so the fuel never runs out). -/
def processBlocks : ℕ → List ℕ → List ℕ → List ℕ
  | 0, _, h => h
  | _ + 1, [], h => h
  | fuel + 1, bytes, h =>
      processBlocks fuel (bytes.drop 64) (compressBlock h (bytesToWords (bytes.take 64)))

/-- SHA-256 digest of a byte list, as the list of its 32 bytes. -/
def sha256 (msg : List ℕ) : List ℕ :=
  let padded := padMessage msg
  ((processBlocks padded.length padded initH).map be32).flatten

end Sha256

namespace RLN

/-- The BN254 scalar-field modulus, `E::Fr::char()` for the `Bn256` engine the
library instantiates (`big_modulus` in src/hash_to_field.rs). -/
def rBN254 : ℕ := 21888242871839275222246405745257275088548364400416034343698204186575808495617

/-- Little-endian interpretation of a byte list (`BigUint::from_bytes_le`). -/
def fromBytesLE (bytes : List ℕ) : ℕ := bytes.foldr (fun b acc => b + 256 * acc) 0

/-- The bytes of `PREFIX_RLN_HASH_TO_FIELD = b"rln_hash_to_field"`. -/
def htfTag : List ℕ :=
  [114, 108, 110, 95, 104, 97, 115, 104, 95, 116, 111, 95, 102, 105, 101, 108, 100]

/-- The bytes of `PREFIX_RLN_HASH_TO_FIELD_LO = b"rln_hash_to_field_lo"`. -/
def htfTagLo : List ℕ :=
  [114, 108, 110, 95, 104, 97, 115, 104, 95, 116, 111, 95, 102, 105, 101, 108, 100, 95, 108, 111]

/-- The bytes of `PREFIX_RLN_HASH_TO_FIELD_HI = b"rln_hash_to_field_hi"`. -/
def htfTagHi : List ℕ :=
  [114, 108, 110, 95, 104, 97, 115, 104, 95, 116, 111, 95, 102, 105, 101, 108, 100, 95, 104, 105]

/-- Embeds `hash_to_field` (src/hash_to_field.rs).  A streaming SHA-256 hasher
state is modelled by the list of bytes absorbed so far, so `Sha256::new` +
`update`s followed by `finalize_fixed` is the digest of the concatenation of the
updates.  The source `clone`s the un-finalized hasher after absorbing
`htfTag ++ data` and continues each clone with one of the two suffixes; the
intermediate state is never finalized.  `big_to_fr` reduces the 512-bit
combination modulo `Fr::char()` and the result is the canonical residue. -/
def hash_to_field (data : List ℕ) : ℕ :=
  let hasher := htfTag ++ data
  let hasher_to_lo := hasher ++ htfTagLo
  let hasher_to_hi := hasher ++ htfTagHi
  let lo := fromBytesLE (Sha256.sha256 hasher_to_lo)
  let hi := fromBytesLE (Sha256.sha256 hasher_to_hi)
  let combined := lo + hi * (1 <<< 256)
  combined % rBN254

/-- The formula C1 claims for `hash_to_field`: `H0` is the *finalized* digest
`SHA256(htfTag ‖ data)`, and each half rehashes `H0` followed by a suffix.
Written from the claim, for comparison with the source embedding. -/
def hash_to_field_claimed (data : List ℕ) : ℕ :=
  let h0 := Sha256.sha256 (htfTag ++ data)
  let lo := fromBytesLE (Sha256.sha256 (h0 ++ htfTagLo))
  let hi := fromBytesLE (Sha256.sha256 (h0 ++ htfTagHi))
  (lo + 2 ^ 256 * hi) % rBN254

/-- Embeds `read_signal_hash` (src/utils.rs): an 8-byte little-endian length
prefix is read (failing, as `read_u64` does, when fewer than 8 bytes remain),
a buffer of `n` zero bytes is allocated, and `reader.read(&mut buf)` copies
however many of the `n` bytes are available — it does *not* fail when the
input is short, and the unfilled tail of the buffer stays zero.  The buffer is
then passed to `hash_to_field`. -/
def read_signal_hash (bytes : List ℕ) : Except String ℕ :=
  if bytes.length < 8 then .error "failed to fill whole buffer"
  else
    let n := fromBytesLE (bytes.take 8)
    let rest := bytes.drop 8
    let filled := rest.take n
    let buf := filled ++ List.replicate (n - filled.length) 0
    .ok (hash_to_field buf)

end RLN

namespace RLN

variable {F : Type} [CommRing F]

/-- Embeds `PoseidonParams` (src/poseidon.rs): full-round count `rf`,
partial-round count `rp`, state width `t`, flat round-constant vector and
row-major `t × t` MDS matrix.  Generic over the field, as the Rust struct is
generic over `E: Engine`. -/
structure PoseidonParams (F : Type) where
  rf : ℕ
  rp : ℕ
  t : ℕ
  round_constants : List F
  mds_matrix : List F

/-- Rust `Vec::resize(n, v)`: truncate when the vector is at least `n` long,
extend with copies of `v` otherwise. -/
def resizeVec (l : List F) (n : ℕ) (v : F) : List F :=
  if n ≤ l.length then l.take n else l ++ List.replicate (n - l.length) v

/-- Embeds `Poseidon::new_state`: the state becomes the inputs resized to
width `t` with zero fill.  Note the source performs no length check: inputs
longer than `t` are silently truncated by `resize`. -/
def new_state (p : PoseidonParams F) (inputs : List F) : List F :=
  resizeVec inputs p.t 0

/-- Embeds `Poseidon::add_round_constants`: the round's constant
(`round_constants[round]`, one constant per round) is added to every state
element. -/
def add_round_constants (p : PoseidonParams F) (round : ℕ) (s : List F) : List F :=
  s.map fun b => b + p.round_constants.getD round 0

/-- The quintic S-box as the source computes it: `b = s²; b = b²; s = s·b`. -/
def quintic (x : F) : F :=
  let b := x * x
  let b := b * b
  x * b

/-- Embeds `Poseidon::apply_quintic_sbox`: with `full` every element goes
through the S-box, otherwise only the first element (the loop breaks after the
first iteration). -/
def apply_quintic_sbox (full : Bool) (s : List F) : List F :=
  if full then s.map quintic
  else
    match s with
    | [] => []
    | x :: rest => quintic x :: rest

/-- Embeds `Poseidon::mul_mds_matrix`: `new_state[i] = Σ_j state[j] ·
mds[i·t + j]` for `i < t`.  The source iterates `j` over the state vector
(which the callers keep at length `t`), pairing it with the matrix row. -/
def mul_mds_matrix (p : PoseidonParams F) (s : List F) : List F :=
  (List.range p.t).map fun i =>
    (List.zipWith (fun sj m => sj * m) s ((p.mds_matrix.drop (i * p.t)).take p.t)).sum

/-- Embeds `Poseidon::full_round`: constants, S-box on every element, MDS. -/
def full_round (p : PoseidonParams F) (round : ℕ) (s : List F) : List F :=
  mul_mds_matrix p (apply_quintic_sbox true (add_round_constants p round s))

/-- Embeds `Poseidon::full_round_last`: constants of the last round
(`total_rounds - 1`) and the S-box, with no MDS multiplication. -/
def full_round_last (p : PoseidonParams F) (s : List F) : List F :=
  apply_quintic_sbox true (add_round_constants p (p.rf + p.rp - 1) s)

/-- Embeds `Poseidon::partial_round`: constants, S-box on the first element
only, MDS. -/
def partial_round (p : PoseidonParams F) (round : ℕ) (s : List F) : List F :=
  mul_mds_matrix p (apply_quintic_sbox false (add_round_constants p round s))

/-- Embeds `Poseidon::round` (the dispatch): rounds below `rf/2` are full,
the next `rp` rounds are partial, the remaining rounds are full with the very
last one omitting the MDS multiplication.  The final `else` branch is the
source's `panic!("should not be here")`, unreachable from `hash`. -/
def roundFn (p : PoseidonParams F) (round : ℕ) (s : List F) : List F :=
  let a1 := p.rf / 2
  let a2 := a1 + p.rp
  let a3 := p.rf + p.rp
  if round < a1 then full_round p round s
  else if round < a2 then partial_round p round s
  else if round < a3 then
    if round = a3 - 1 then full_round_last p s else full_round p round s
  else s

/-- The round loop of `Poseidon::hash`: starting at round counter `r`, apply
`n` rounds (the source loops until the counter reaches `total_rounds`). -/
def runRounds (p : PoseidonParams F) : ℕ → ℕ → List F → List F
  | 0, _, s => s
  | n + 1, r, s => runRounds p n (r + 1) (roundFn p r s)

/-- The full Poseidon permutation on the padded state (the body of
`Poseidon::hash` for a hasher whose round counter is 0, which `clear`
guarantees at every observable point). -/
def poseidonPerm (p : PoseidonParams F) (inputs : List F) : List F :=
  runRounds p (p.rf + p.rp) 0 (new_state p inputs)

/-- Embeds `Poseidon::hash` as a function of the inputs: run the permutation
and return `state[0]` (`Poseidon::result`; indexing an empty state panics in
Rust, which only happens for width `t = 0`). -/
def poseidonHash (p : PoseidonParams F) (inputs : List F) : F :=
  (poseidonPerm p inputs).getD 0 0

/-- Iterate a round function over consecutive round indices: apply rounds
`r0, r0+1, …, r0+n-1` in order.  Used to phrase the phase structure that C5
claims for the permutation. -/
def iterRounds (f : PoseidonParams F → ℕ → List F → List F) (p : PoseidonParams F) :
    ℕ → ℕ → List F → List F
  | _, 0, s => s
  | r0, n + 1, s => iterRounds f p (r0 + 1) n (f p r0 s)

end RLN

namespace RLN

variable {F : Type} [CommRing F] [DecidableEq F]

/-- Embeds the stateful `Poseidon<E>` hasher object: parameters, the mutable
state vector, and the round counter (`Poseidon::new` starts both at
empty/zero; `clear` resets the counter at the end of every `hash`). -/
structure PoseidonHasher (F : Type) where
  params : PoseidonParams F
  state : List F
  round : ℕ

/-- Embeds `Poseidon::hash` on the hasher object: load `new_state`, loop the
round dispatch from the current round counter until it reaches
`total_rounds`, read `state[0]`, and `clear` the counter.  The mutated hasher
is returned alongside the digest (`&mut self` becomes state passing). -/
def PoseidonHasher.hashSt (h : PoseidonHasher F) (inputs : List F) : F × PoseidonHasher F :=
  let s := runRounds h.params (h.params.rf + h.params.rp - h.round) h.round
    (new_state h.params inputs)
  (s.getD 0 0, { h with state := s, round := 0 })

/-- Embeds `MerkleTree<E>` (src/merkle.rs): the owned hasher, the zero-chain
`zero[0..=depth]`, the fixed depth, and the sparse node map
`HashMap<(usize, usize), Fr>` as a partial function. -/
structure MerkleTree (F : Type) where
  hasher : PoseidonHasher F
  zero : List F
  depth : ℕ
  nodes : ℕ × ℕ → Option F

/-- The zero-chain loop of `MerkleTree::empty`: starting from the previous
value `last`, push `hasher.hash([last, last])` `n` times, threading the
mutated hasher. -/
def zeroChainAux (h : PoseidonHasher F) (last : F) : ℕ → List F × PoseidonHasher F
  | 0 => ([], h)
  | n + 1 =>
    let (v, h1) := h.hashSt [last, last]
    let (rest, h2) := zeroChainAux h1 v n
    (v :: rest, h2)

/-- Embeds `MerkleTree::empty`: build `zero` as `[0]` followed by `depth`
successive hashes of the previous entry with itself, reverse it, and return a
tree with no stored nodes. -/
def MerkleTree.empty (h : PoseidonHasher F) (depth : ℕ) : MerkleTree F :=
  let (tail, h1) := zeroChainAux h 0 depth
  { hasher := h1, zero := (0 :: tail).reverse, depth := depth, nodes := fun _ => none }

/-- Embeds `MerkleTree::get_node`: the stored node, or `zero[level]` when
absent (`self.zero[depth]` panics above the list length, which the callers
never reach; the `getD` default stands for that panic). -/
def MerkleTree.get_node (t : MerkleTree F) (depth index : ℕ) : F :=
  (t.nodes (depth, index)).getD (t.zero.getD depth 0)

/-- Embeds `MerkleTree::hash_couple`: hash the node pair below `index & !1`
(the index with its low bit cleared, i.e. `2 * (index / 2)`), threading the
hasher mutation. -/
def MerkleTree.hash_couple (t : MerkleTree F) (depth index : ℕ) : F × MerkleTree F :=
  let b := 2 * (index / 2)
  let (v, h1) := t.hasher.hashSt [t.get_node depth b, t.get_node depth (b + 1)]
  (v, { t with hasher := h1 })

/-- `HashMap::insert` on the node map. -/
def MerkleTree.insertNode (t : MerkleTree F) (key : ℕ × ℕ) (v : F) : MerkleTree F :=
  { t with nodes := fun k => if k = key then some v else t.nodes k }

/-- The loop of `MerkleTree::recalculate_from`, recursing on the current
level: hash the couple at `(level, i)`, store it at `(level - 1, i >> 1)`, and
continue until level 0 is written.  A call at level 0 is the source's
underflowing `depth -= 1`, unreachable because every caller has `depth ≥ 1`;
the embedding returns the tree unchanged there. -/
def MerkleTree.recalcAux : MerkleTree F → ℕ → ℕ → MerkleTree F
  | t, _, 0 => t
  | t, i, d + 1 =>
    let (h, t1) := t.hash_couple (d + 1) i
    let t2 := t1.insertNode (d, i / 2) h
    MerkleTree.recalcAux t2 (i / 2) d

/-- Embeds `MerkleTree::update`: store the leaf at `(depth, leaf_index)` and
recompute every ancestor up to the root. -/
def MerkleTree.update (t : MerkleTree F) (leaf_index : ℕ) (leaf : F) : MerkleTree F :=
  MerkleTree.recalcAux (t.insertNode (t.depth, leaf_index) leaf) leaf_index t.depth

/-- Embeds `MerkleTree::root`: the stored-or-implicit node at `(0, 0)`. -/
def MerkleTree.root (t : MerkleTree F) : F :=
  t.get_node 0 0

/-- The loop of `MerkleTree::witness`, recursing on the current level: flip
the low bit of the path index (`i ^= 1`), record the node there together with
the bit `i & 1 == 1` of the *flipped* index, shift right and descend.  The
body only reads the tree (its `&mut self` is never used to write), so the
embedding is a pure function of the tree. -/
def MerkleTree.witnessAux (t : MerkleTree F) : ℕ → ℕ → List (F × Bool)
  | _, 0 => []
  | i, d + 1 =>
    (t.get_node (d + 1) (i ^^^ 1), decide ((i ^^^ 1) % 2 = 1)) ::
      MerkleTree.witnessAux t ((i ^^^ 1) / 2) d

/-- Embeds `MerkleTree::witness`: the authentication path of `leaf_index`,
ordered from the leaf level upward. -/
def MerkleTree.witness (t : MerkleTree F) (leaf_index : ℕ) : List (F × Bool) :=
  t.witnessAux leaf_index t.depth

/-- The loop of `MerkleTree::check_inclusion`: fold the witnessed path onto
the accumulator, hashing `[acc, sibling]` when the stored bit is set and
`[sibling, acc]` otherwise, threading the hasher mutation. -/
def MerkleTree.checkFold : MerkleTree F → F → List (F × Bool) → F × MerkleTree F
  | t, acc, [] => (acc, t)
  | t, acc, (s, b) :: rest =>
    let (v, h1) := t.hasher.hashSt (if b then [acc, s] else [s, acc])
    MerkleTree.checkFold { t with hasher := h1 } v rest

/-- Embeds `MerkleTree::check_inclusion`: hash the raw `data` once to get the
leaf accumulator, `assert!` that the stored leaf equals it (a failing
`assert!` panics, modelled as `none`), fold the witness upward and compare
with the current root.  The mutated tree (its hasher advanced) is returned
alongside. -/
def MerkleTree.check_inclusion (t : MerkleTree F) (w : List (F × Bool)) (leaf_index : ℕ)
    (data : F) : Option Bool × MerkleTree F :=
  let (acc, h1) := t.hasher.hashSt [data]
  let t1 : MerkleTree F := { t with hasher := h1 }
  if t1.get_node t1.depth leaf_index = acc then
    let (accF, t2) := t1.checkFold acc w
    (some (decide (accF = t2.root)), t2)
  else (none, t1)

/-- Embeds `MerkleTree::insert`: with `old` supplied, `assert!` that the
stored leaf is zero when `old` is zero and equals `hash([old])` otherwise
(panics become `none`); then store `hash([new])` via `update`. -/
def MerkleTree.insert (t : MerkleTree F) (leaf_index : ℕ) (new : F) (old : Option F) :
    Option (MerkleTree F) :=
  match old with
  | some o =>
    let tv := t.get_node t.depth leaf_index
    if tv = 0 then
      if o = 0 then
        let (leaf, h1) := t.hasher.hashSt [new]
        some (MerkleTree.update { t with hasher := h1 } leaf_index leaf)
      else none
    else
      let (ho, h1) := t.hasher.hashSt [o]
      if tv = ho then
        let t1 : MerkleTree F := { t with hasher := h1 }
        let (leaf, h2) := t1.hasher.hashSt [new]
        some (MerkleTree.update { t1 with hasher := h2 } leaf_index leaf)
      else none
  | none =>
    let (leaf, h1) := t.hasher.hashSt [new]
    some (MerkleTree.update { t with hasher := h1 } leaf_index leaf)

end RLN

namespace RLN

/-- An uncompressed Groth16 proof: three curve points `(a, b, c)`, with the
curve groups abstract (the pairing curve is an external collaborator). -/
structure ProofRepr (G1 G2 : Type) where
  a : G1
  b : G2
  c : G1
deriving DecidableEq

/-- The external curve interface consumed by `read_uncompressed_proof`
(src/utils.rs): the uncompressed encoding lengths of the two groups, the
affine decoders (`into_affine`, `None` for an invalid encoding), and the
point-at-infinity tests (`is_zero`). -/
structure CurveAdapter (G1 G2 : Type) where
  g1Len : ℕ
  g2Len : ℕ
  parseG1 : List ℕ → Option G1
  parseG2 : List ℕ → Option G2
  g1IsZero : G1 → Bool
  g2IsZero : G2 → Bool

/-- Read one G1 point as `read_uncompressed_proof` does: `read_exact` the
fixed-size buffer (erroring when the input is short), decode it, and reject
the point at infinity. -/
def readG1 {G1 G2 : Type} (ca : CurveAdapter G1 G2) (bytes : List ℕ) :
    Except String (G1 × List ℕ) :=
  if bytes.length < ca.g1Len then .error "failed to fill whole buffer"
  else
    match ca.parseG1 (bytes.take ca.g1Len) with
    | none => .error "invalid encoding"
    | some pt =>
      if ca.g1IsZero pt then .error "point at infinity"
      else .ok (pt, bytes.drop ca.g1Len)

/-- Read one G2 point, as `readG1`. -/
def readG2 {G1 G2 : Type} (ca : CurveAdapter G1 G2) (bytes : List ℕ) :
    Except String (G2 × List ℕ) :=
  if bytes.length < ca.g2Len then .error "failed to fill whole buffer"
  else
    match ca.parseG2 (bytes.take ca.g2Len) with
    | none => .error "invalid encoding"
    | some pt =>
      if ca.g2IsZero pt then .error "point at infinity"
      else .ok (pt, bytes.drop ca.g2Len)

/-- Embeds `read_uncompressed_proof` (src/utils.rs): read `a ∈ G1`,
`b ∈ G2`, `c ∈ G1` in order, each uncompressed and rejected when it is the
point at infinity. -/
def read_uncompressed_proof {G1 G2 : Type} (ca : CurveAdapter G1 G2) (bytes : List ℕ) :
    Except String (ProofRepr G1 G2 × List ℕ) :=
  match readG1 ca bytes with
  | .error e => .error e
  | .ok (a, r1) =>
    match readG2 ca r1 with
    | .error e => .error e
    | .ok (b, r2) =>
      match readG1 ca r2 with
      | .error e => .error e
      | .ok (c, r3) => .ok (⟨a, b, c⟩, r3)

/-- Read one 32-byte little-endian canonical field element, as
`PrimeFieldRepr::read_le` followed by `Fr::from_repr` does: error when fewer
than 32 bytes remain or the value is not below the modulus.  The element is
its canonical residue. -/
def readFrLE (bytes : List ℕ) : Except String (ℕ × List ℕ) :=
  if bytes.length < 32 then .error "failed to fill whole buffer"
  else
    let n := fromBytesLE (bytes.take 32)
    if n < rBN254 then .ok (n, bytes.drop 32) else .error "not in field"

/-- Modelled from the spec: `RLNInputs::read_public_inputs` lives in
src/circuit/rln.rs, which is absent from the sources; per the spec the public
inputs blob is `root(32) ‖ epoch(32) ‖ share_x(32) ‖ share_y(32) ‖
nullifier(32)`, five canonical little-endian field elements in that order. -/
def read_public_inputs (bytes : List ℕ) : Except String (List ℕ × List ℕ) :=
  match readFrLE bytes with
  | .error e => .error e
  | .ok (root, r1) =>
    match readFrLE r1 with
    | .error e => .error e
    | .ok (epoch, r2) =>
      match readFrLE r2 with
      | .error e => .error e
      | .ok (share_x, r3) =>
        match readFrLE r3 with
        | .error e => .error e
        | .ok (share_y, r4) =>
          match readFrLE r4 with
          | .error e => .error e
          | .ok (nullifier, r5) => .ok ([root, epoch, share_x, share_y, nullifier], r5)

/-- Embeds `RLN::verify` (src/public.rs): parse the uncompressed proof, the
five public inputs, and the trailing length-prefixed signal; reject with a
`signal hash mismatch` error when the recomputed `hash_to_field` of the
signal differs from the parsed `share_x` (`public_inputs[2]`); otherwise call
the external Groth16 verifier (an abstract parameter, whose `false` result is
a cryptographic failure) and return its verdict.  Field elements are
canonical residues (`ℕ` below the modulus). -/
def verify {G1 G2 : Type} (ca : CurveAdapter G1 G2)
    (groth16Verify : ProofRepr G1 G2 → List ℕ → Bool) (input : List ℕ) :
    Except String Bool :=
  match read_uncompressed_proof ca input with
  | .error e => .error e
  | .ok (proof, r1) =>
    match read_public_inputs r1 with
    | .error e => .error e
    | .ok (public_inputs, r2) =>
      match read_signal_hash r2 with
      | .error e => .error e
      | .ok signal_hash =>
        if signal_hash ≠ public_inputs.getD 2 0 then .error "signal hash mismatch"
        else .ok (groth16Verify proof public_inputs)

variable {F : Type} [CommRing F]

/-- The share computation of `RLN::generate_proof` (src/public.rs): with
`a_0 = id_key` and `a_1 = hasher.hash([a_0, epoch])`, the `y`-share is
`a_1 · share_x + a_0` (`mul_assign` then `add_assign`). -/
def computeShareY (a1 share_x a0 : F) : F :=
  a1 * share_x + a0

/-- Solving the two share equations by linear interpolation, as the spec's
key-recovery property describes: the line through `(x, y)` and `(x2, y2)`
has constant coefficient `(y·x2 − y2·x) / (x2 − x)`. -/
def recoverKey {K : Type} [Field K] (x y x2 y2 : K) : K :=
  (y * x2 - y2 * x) * (x2 - x)⁻¹

end RLN

namespace RLN

variable {F : Type} [CommRing F] [DecidableEq F]

/-- Iterating a round function is phrased below against this pure fold of an
authentication path onto an accumulator: hash `[acc, sibling]` when the bit is
set and `[sibling, acc]` otherwise.  It is the hasher-free counterpart of
`MerkleTree.checkFold`. -/
def foldUp (P : PoseidonParams F) : F → List (F × Bool) → F
  | acc, [] => acc
  | acc, (s, b) :: rest =>
    foldUp P (if b then poseidonHash P [acc, s] else poseidonHash P [s, acc]) rest

/-- Hasher-free counterpart of the `zeroChainAux` loop: the list of `n`
successive doubling hashes starting from `x`. -/
def chainList (P : PoseidonParams F) : F → ℕ → List F
  | _, 0 => []
  | x, n + 1 => poseidonHash P [x, x] :: chainList P (poseidonHash P [x, x]) n

/-- The zero-chain as the spec defines it, indexed by height above the leaf
level: `zero[d] = 0` and `zero[i] = H(zero[i+1], zero[i+1])`, so the value at
level `i` of a depth-`d` tree is `zeroIter P (d - i)`. -/
def zeroIter (P : PoseidonParams F) : ℕ → F
  | 0 => 0
  | n + 1 => poseidonHash P [zeroIter P n, zeroIter P n]

/-- Concrete Poseidon parameters over `ZMod 7` (width 2) used to instantiate
universally quantified theorems on explicit inputs. -/
def pZ : PoseidonParams (ZMod 7) := ⟨2, 1, 2, [1, 2, 3], [1, 1, 0, 1]⟩

/-- Concrete Poseidon parameters over `ZMod 7` with width 3. -/
def pZ3 : PoseidonParams (ZMod 7) := ⟨2, 1, 3, [1, 2, 3], [1, 0, 0, 0, 1, 0, 0, 0, 1]⟩

/-- A fresh hasher over `pZ`, as `Poseidon::new` builds it. -/
def hZ : PoseidonHasher (ZMod 7) := ⟨pZ, [], 0⟩

/-- A concrete empty depth-2 tree over `ZMod 7`. -/
def tZ : MerkleTree (ZMod 7) := MerkleTree.empty hZ 2

/-- A trivial curve adapter (both groups are `Unit`, every buffer decodes,
nothing is the point at infinity) used to instantiate the `verify` theorem. -/
def ca0 : CurveAdapter Unit Unit :=
  ⟨1, 2, fun _ => some (), fun _ => some (), fun _ => false, fun _ => false⟩

/-- A concrete `verify` input for `ca0`: 4 bytes of proof encoding, 160 zero
bytes of public inputs, and an empty length-prefixed signal. -/
def vInput : List ℕ := [7] ++ [7, 7] ++ [7] ++ List.replicate 160 0 ++ List.replicate 8 0

instance : Fact (Nat.Prime 7) := ⟨by norm_num⟩

instance {e a : Type} [DecidableEq e] [DecidableEq a] : DecidableEq (Except e a)
  | .error x, .error y =>
    if h : x = y then .isTrue (by rw [h]) else .isFalse (by intro hc; cases hc; exact h rfl)
  | .error _, .ok _ => .isFalse (by intro hc; cases hc)
  | .ok _, .error _ => .isFalse (by intro hc; cases hc)
  | .ok x, .ok y =>
    if h : x = y then .isTrue (by rw [h]) else .isFalse (by intro hc; cases hc; exact h rfl)

end RLN

namespace RLN

variable {F : Type} [CommRing F]

theorem xor_one_eq (n : ℕ) : n ^^^ 1 = Nat.bit (!decide (n % 2 = 1)) (n / 2) := by
  conv_lhs => rw [← Nat.bit_decide_mod_two_eq_one_shiftRight_one n]
  rw [show (1 : ℕ) = Nat.bit true 0 from rfl, Nat.xor_bit]
  simp [Nat.shiftRight_one]

theorem xor_one_div_two (n : ℕ) : (n ^^^ 1) / 2 = n / 2 := by
  rw [xor_one_eq, Nat.bit_div_two]

theorem xor_one_mod_two (n : ℕ) : (n ^^^ 1) % 2 = 1 ↔ n % 2 = 0 := by
  rw [xor_one_eq, Nat.bit_mod_two]
  rcases Nat.mod_two_eq_zero_or_one n with h | h <;> simp [h]

theorem xor_one_of_even {n : ℕ} (hn : n % 2 = 0) : n ^^^ 1 = n + 1 := by
  rw [xor_one_eq, hn, Nat.bit_val]
  simp
  omega

theorem xor_one_of_odd {n : ℕ} (hn : n % 2 = 1) : n ^^^ 1 = 2 * (n / 2) := by
  rw [xor_one_eq, hn, Nat.bit_val]
  simp

theorem hashSt_fst (h : PoseidonHasher F) (ins : List F) (hr : h.round = 0) :
    (h.hashSt ins).1 = poseidonHash h.params ins := by
  simp [PoseidonHasher.hashSt, poseidonHash, poseidonPerm, hr]

theorem hashSt_params (h : PoseidonHasher F) (ins : List F) :
    (h.hashSt ins).2.params = h.params := rfl

theorem hashSt_round (h : PoseidonHasher F) (ins : List F) :
    (h.hashSt ins).2.round = 0 := rfl

theorem runRounds_add (p : PoseidonParams F) (m n r : ℕ) (s : List F) :
    runRounds p (m + n) r s = runRounds p n (r + m) (runRounds p m r s) := by
  induction m generalizing r s with
  | zero => simp [runRounds]
  | succ k ih =>
    rw [show k + 1 + n = (k + n) + 1 from by omega]
    show runRounds p (k + n) (r + 1) (roundFn p r s) = _
    rw [ih]
    show _ = runRounds p n (r + (k + 1)) (runRounds p k (r + 1) (roundFn p r s))
    rw [show r + 1 + k = r + (k + 1) from by omega]

theorem runRounds_eq_iter (f : PoseidonParams F → ℕ → List F → List F) (p : PoseidonParams F)
    (n : ℕ) :
    ∀ (r : ℕ) (s : List F), (∀ k s', k < n → roundFn p (r + k) s' = f p (r + k) s') →
      runRounds p n r s = iterRounds f p r n s := by
  induction n with
  | zero => intro r s _; rfl
  | succ m ih =>
    intro r s hf
    show runRounds p m (r + 1) (roundFn p r s) = iterRounds f p (r + 1) m (f p r s)
    have h0 := hf 0 s (by omega)
    rw [Nat.add_zero] at h0
    rw [h0]
    exact ih (r + 1) (f p r s) fun k s' hk => by
      have := hf (k + 1) s' (by omega)
      rwa [show r + (k + 1) = r + 1 + k from by omega] at this

theorem quintic_eq_pow (x : F) : quintic x = x ^ 5 := by
  simp only [quintic]
  ring

theorem new_state_eq_pad (p : PoseidonParams F) (inputs : List F)
    (h : inputs.length ≤ p.t) :
    new_state p inputs = inputs ++ List.replicate (p.t - inputs.length) 0 := by
  unfold new_state resizeVec
  split_ifs with ht
  · have : p.t = inputs.length := by omega
    simp [this]
  · rfl

/-- Claim C5 (confirmed): running `hash` on at most `t − 1` inputs is, on the
zero-padded initial state, `rf/2` full rounds, then `rp` partial rounds, then
`rf/2` further full rounds of which the very last omits the MDS
multiplication, with `state[0]` as output; a full round adds the round
constant to every element, raises every element to the 5th power and applies
the MDS matrix, and a partial round applies the S-box to the first element
only. -/
theorem poseidon_phase_structure (p : PoseidonParams F) (inputs : List F)
    (hrf2 : p.rf % 2 = 0) (hrf : 1 ≤ p.rf) (hlen : inputs.length ≤ p.t - 1) :
    poseidonHash p inputs =
      (full_round_last p
        (iterRounds full_round p (p.rf / 2 + p.rp) (p.rf / 2 - 1)
          (iterRounds partial_round p (p.rf / 2) p.rp
            (iterRounds full_round p 0 (p.rf / 2)
              (inputs ++ List.replicate (p.t - inputs.length) 0))))).getD 0 0 ∧
    (∀ r s, full_round p r s =
        mul_mds_matrix p
          ((s.map fun b => b + p.round_constants.getD r 0).map fun x => x ^ 5)) ∧
    (∀ r x rest, partial_round p r (x :: rest) =
        mul_mds_matrix p
          ((x + p.round_constants.getD r 0) ^ 5 ::
            rest.map fun b => b + p.round_constants.getD r 0)) ∧
    (∀ s, full_round_last p s =
        (s.map fun b => b + p.round_constants.getD (p.rf + p.rp - 1) 0).map
          fun x => x ^ 5) := by
  have hq : ∀ l : List F, l.map quintic = l.map fun x => x ^ 5 :=
    fun l => List.map_congr_left fun x _ => quintic_eq_pow x
  refine ⟨?_, ?_, ?_, ?_⟩
  · have ha : 1 ≤ p.rf / 2 := by omega
    have htot : p.rf + p.rp = p.rf / 2 + (p.rp + ((p.rf / 2 - 1) + 1)) := by omega
    unfold poseidonHash poseidonPerm
    rw [new_state_eq_pad p inputs (by omega)]
    rw [htot, runRounds_add, runRounds_add, runRounds_add]
    rw [runRounds_eq_iter full_round p (p.rf / 2) 0 _ ?seg1]
    case seg1 =>
      intro k s' hk
      simp only [roundFn]
      rw [if_pos (by omega : 0 + k < p.rf / 2)]
    rw [show (0 : ℕ) + p.rf / 2 = p.rf / 2 from by omega]
    rw [runRounds_eq_iter partial_round p p.rp (p.rf / 2) _ ?seg2]
    case seg2 =>
      intro k s' hk
      simp only [roundFn]
      rw [if_neg (by omega : ¬ p.rf / 2 + k < p.rf / 2),
        if_pos (by omega : p.rf / 2 + k < p.rf / 2 + p.rp)]
    rw [runRounds_eq_iter full_round p (p.rf / 2 - 1) (p.rf / 2 + p.rp) _ ?seg3]
    case seg3 =>
      intro k s' hk
      simp only [roundFn]
      rw [if_neg (by omega : ¬ p.rf / 2 + p.rp + k < p.rf / 2),
        if_neg (by omega : ¬ p.rf / 2 + p.rp + k < p.rf / 2 + p.rp),
        if_pos (by omega : p.rf / 2 + p.rp + k < p.rf + p.rp),
        if_neg (by omega : ¬ p.rf / 2 + p.rp + k = p.rf + p.rp - 1)]
    show (runRounds p 1 (p.rf / 2 + p.rp + (p.rf / 2 - 1)) _).getD 0 0 = _
    unfold runRounds
    simp only [roundFn]
    rw [if_neg (by omega : ¬ p.rf / 2 + p.rp + (p.rf / 2 - 1) < p.rf / 2),
      if_neg (by omega : ¬ p.rf / 2 + p.rp + (p.rf / 2 - 1) < p.rf / 2 + p.rp),
      if_pos (by omega : p.rf / 2 + p.rp + (p.rf / 2 - 1) < p.rf + p.rp),
      if_pos (by omega : p.rf / 2 + p.rp + (p.rf / 2 - 1) = p.rf + p.rp - 1)]
    rfl
  · intro r s
    unfold full_round apply_quintic_sbox add_round_constants
    rw [if_pos rfl]
    rw [hq]
  · intro r x rest
    unfold partial_round apply_quintic_sbox add_round_constants
    simp only [List.map_cons, if_neg (Bool.false_ne_true)]
    rw [quintic_eq_pow]
  · intro s
    unfold full_round_last apply_quintic_sbox add_round_constants
    rw [if_pos rfl]
    rw [hq]

/-- Witness for C5: the phase decomposition evaluated on concrete parameters
over `ZMod 7` with input `[1]`. -/
theorem poseidon_phase_structure_witness :
    poseidonHash pZ [(1 : ZMod 7)] =
      (full_round_last pZ
        (iterRounds full_round pZ (pZ.rf / 2 + pZ.rp) (pZ.rf / 2 - 1)
          (iterRounds partial_round pZ (pZ.rf / 2) pZ.rp
            (iterRounds full_round pZ 0 (pZ.rf / 2)
              ([(1 : ZMod 7)] ++ List.replicate (pZ.t - 1) 0))))).getD 0 0 :=
  (poseidon_phase_structure pZ [1] (by decide) (by decide) (by decide)).1

/-- Counterexample to C6 as stated: with width `t = 3`, the four-element
input `[1,2,3,4]` (longer than `t − 1 = 2`) is not a domain error — `hash`
produces a digest, namely that of the input silently truncated to its first
`t` elements, because `new_state`'s `resize` drops the tail. -/
theorem poseidon_long_input_not_error :
    new_state pZ3 [(1 : ZMod 7), 2, 3, 4] = [1, 2, 3] ∧
    poseidonHash pZ3 [(1 : ZMod 7), 2, 3, 4] = poseidonHash pZ3 [1, 2, 3] := by
  constructor
  · decide
  · decide

/-- Claim C6 (corrected): inputs of length at most `t − 1` (indeed at most
`t`) load the state as the inputs right-padded with zeros to length `t`; but
inputs longer than `t − 1` are *not* a domain error — `new_state` silently
truncates them to the first `t` elements and `hash` returns the digest of the
truncated sequence. -/
theorem poseidon_input_contract (p : PoseidonParams F) (inputs : List F) :
    (inputs.length ≤ p.t →
      new_state p inputs = inputs ++ List.replicate (p.t - inputs.length) 0) ∧
    (p.t ≤ inputs.length →
      new_state p inputs = inputs.take p.t ∧
        poseidonHash p inputs = poseidonHash p (inputs.take p.t)) := by
  constructor
  · exact fun h => new_state_eq_pad p inputs h
  · intro h
    have hstate : new_state p inputs = inputs.take p.t := by
      unfold new_state resizeVec
      rw [if_pos h]
    refine ⟨hstate, ?_⟩
    unfold poseidonHash poseidonPerm
    rw [hstate]
    have : new_state p (inputs.take p.t) = inputs.take p.t := by
      unfold new_state resizeVec
      rw [if_pos (show p.t ≤ (inputs.take p.t).length by simp only [List.length_take]; omega),
        List.take_take]
      simp
    rw [this]

/-- Witness for C6: the corrected input contract evaluated on concrete
parameters over `ZMod 7`. -/
theorem poseidon_input_contract_witness :
    new_state pZ3 [(1 : ZMod 7), 2, 3, 4] = [(1 : ZMod 7), 2, 3, 4].take pZ3.t ∧
      poseidonHash pZ3 [(1 : ZMod 7), 2, 3, 4] =
        poseidonHash pZ3 ([(1 : ZMod 7), 2, 3, 4].take pZ3.t) :=
  (poseidon_input_contract pZ3 [1, 2, 3, 4]).2 (by decide)

set_option maxRecDepth 4000 in
/-- Counterexample to C1 as stated: at `data = []` the source's value differs
from the claimed formula, because the source never finalizes the intermediate
digest `H0` — it clones the streaming hasher and keeps absorbing, so the
halves hash `tag ‖ data ‖ suffix` rather than `SHA256(tag ‖ data) ‖ suffix`. -/
theorem hash_to_field_claim_refuted : hash_to_field [] ≠ hash_to_field_claimed [] := by
  decide

/-- Claim C1 (corrected): for every byte string `data`, `hash_to_field(data)`
equals `(lo + 2^256 · hi) mod p` encoded as `Fr`, where `lo` is the digest
`SHA256("rln_hash_to_field" ‖ data ‖ "rln_hash_to_field_lo")` interpreted as
a 256-bit little-endian integer and `hi` is the same with the `_hi` suffix
(no intermediate digest is finalized). -/
theorem hash_to_field_eq_formula (data : List ℕ) :
    hash_to_field data =
      (fromBytesLE (Sha256.sha256 (htfTag ++ data ++ htfTagLo)) +
        2 ^ 256 * fromBytesLE (Sha256.sha256 (htfTag ++ data ++ htfTagHi))) % rBN254 := by
  unfold hash_to_field
  rw [Nat.one_shiftLeft, Nat.mul_comm]

set_option maxRecDepth 4000 in
/-- Claim C7 (code bug): `read_signal_hash` with a declared length of 4 but
only 2 remaining bytes does not return an `InvalidLength` error; the
`reader.read` call leaves the unfilled half of the buffer zeroed and the
zero-padded buffer is hashed (and its hash differs from that of the two
available bytes alone). -/
theorem read_signal_hash_short_input :
    read_signal_hash [4, 0, 0, 0, 0, 0, 0, 0, 170, 187] =
      .ok (hash_to_field [170, 187, 0, 0]) ∧
    hash_to_field [170, 187, 0, 0] ≠ hash_to_field [170, 187] := by
  constructor
  · decide
  · decide

/-- Claim C8 (confirmed): with `a1 = Poseidon(id_key, epoch)` and shares
`share_y = a1 · share_x + id_key` as `generate_proof` computes them, two
shares at distinct abscissae determine the line uniquely, and the
interpolation formula recovers `id_key` exactly. -/
theorem share_key_recovery {K : Type} [Field K] (p : PoseidonParams K)
    (id_key epoch x x2 : K) (hx : x ≠ x2) :
    (∀ a b : K,
        computeShareY (poseidonHash p [id_key, epoch]) x id_key = a * x + b →
        computeShareY (poseidonHash p [id_key, epoch]) x2 id_key = a * x2 + b →
        a = poseidonHash p [id_key, epoch] ∧ b = id_key) ∧
    recoverKey x (computeShareY (poseidonHash p [id_key, epoch]) x id_key) x2
      (computeShareY (poseidonHash p [id_key, epoch]) x2 id_key) = id_key := by
  have hne : x2 - x ≠ 0 := sub_ne_zero.mpr (Ne.symm hx)
  constructor
  · intro a b h1 h2
    unfold computeShareY at h1 h2
    have hzero : (poseidonHash p [id_key, epoch] - a) * (x - x2) = 0 := by
      linear_combination h1 - h2
    have ha : a = poseidonHash p [id_key, epoch] := by
      rcases mul_eq_zero.mp hzero with h | h
      · exact (sub_eq_zero.mp h).symm
      · exact absurd (sub_eq_zero.mp h) hx
    refine ⟨ha, ?_⟩
    rw [ha] at h1
    linear_combination -h1
  · unfold recoverKey computeShareY
    field_simp
    ring

/-- Witness for C8: key recovery evaluated over `ZMod 7` with `id_key = 3`,
`epoch = 1`, and shares at `x = 1` and `x2 = 2`. -/
theorem share_key_recovery_witness :
    recoverKey (1 : ZMod 7)
      (computeShareY (poseidonHash pZ [3, 1]) 1 3) 2
      (computeShareY (poseidonHash pZ [3, 1]) 2 3) = 3 :=
  (share_key_recovery pZ 3 1 1 2 (by decide)).2

/-- Claim C4 (confirmed): whenever the proof, the public inputs and the
trailing signal all parse, `verify` returns the `signal hash mismatch` error
— for *every* external Groth16 verifier, i.e. without consulting it — when
the recomputed signal hash differs from `share_x` (`public_inputs[2]`), and
returns `Ok` of the external verifier's verdict (in particular `Ok false` on
a cryptographically failing check, not an error) when the hashes agree. -/
theorem verify_contract {G1 G2 : Type} (ca : CurveAdapter G1 G2) (input : List ℕ)
    (proof : ProofRepr G1 G2) (r1 pubs r2 : List ℕ) (sh : ℕ)
    (h1 : read_uncompressed_proof ca input = .ok (proof, r1))
    (h2 : read_public_inputs r1 = .ok (pubs, r2))
    (h3 : read_signal_hash r2 = .ok sh) :
    (sh ≠ pubs.getD 2 0 →
      ∀ g16, verify ca g16 input = .error "signal hash mismatch") ∧
    (sh = pubs.getD 2 0 →
      ∀ g16, verify ca g16 input = .ok (g16 proof pubs)) := by
  constructor
  · intro hne g16
    have hne2 : ¬ sh = pubs[2]?.getD 0 := by simpa [List.getD] using hne
    simp [verify, h1, h2, h3, hne2]
  · intro heq g16
    have heq2 : sh = pubs[2]?.getD 0 := by simpa [List.getD] using heq
    simp [verify, h1, h2, h3, heq2]

set_option maxRecDepth 8000 in
/-- Witness for C4: on a concrete input whose recomputed signal hash (that of
the empty signal) differs from the zero `share_x`, `verify` with the
always-false external verifier returns the mismatch error. -/
theorem verify_contract_witness :
    verify ca0 (fun _ _ => false) vInput = .error "signal hash mismatch" :=
  (verify_contract ca0 vInput ⟨(), (), ()⟩
      (List.replicate 160 0 ++ List.replicate 8 0) [0, 0, 0, 0, 0] (List.replicate 8 0)
      8780301782033286752304992985948920097078544564950506122935615813722664705229
      (by decide) (by decide) (by decide)).1
    (by decide) (fun _ _ => false)

theorem hash_couple_nodes (t : MerkleTree F) (d i : ℕ) :
    (t.hash_couple d i).2.nodes = t.nodes := rfl

theorem hash_couple_zero (t : MerkleTree F) (d i : ℕ) :
    (t.hash_couple d i).2.zero = t.zero := rfl

theorem hash_couple_depth (t : MerkleTree F) (d i : ℕ) :
    (t.hash_couple d i).2.depth = t.depth := rfl

theorem hash_couple_params (t : MerkleTree F) (d i : ℕ) :
    (t.hash_couple d i).2.hasher.params = t.hasher.params := rfl

theorem hash_couple_round (t : MerkleTree F) (d i : ℕ) :
    (t.hash_couple d i).2.hasher.round = 0 := rfl

theorem hash_couple_fst (t : MerkleTree F) (d i : ℕ) (hr : t.hasher.round = 0) :
    (t.hash_couple d i).1 =
      poseidonHash t.hasher.params
        [t.get_node d (2 * (i / 2)), t.get_node d (2 * (i / 2) + 1)] := by
  simp [MerkleTree.hash_couple, hashSt_fst _ _ hr]

theorem insertNode_get_same (t : MerkleTree F) (k : ℕ × ℕ) (v : F) :
    (t.insertNode k v).get_node k.1 k.2 = v := by
  simp [MerkleTree.insertNode, MerkleTree.get_node]

theorem insertNode_nodes_ne (t : MerkleTree F) (k : ℕ × ℕ) (v : F) (k2 : ℕ × ℕ)
    (h : k2 ≠ k) : (t.insertNode k v).nodes k2 = t.nodes k2 := by
  simp [MerkleTree.insertNode, h]

theorem recalcAux_zero (d : ℕ) : ∀ (t : MerkleTree F) (i : ℕ),
    (MerkleTree.recalcAux t i d).zero = t.zero := by
  induction d with
  | zero => intro t i; rfl
  | succ d ih => intro t i; exact ih _ _

theorem recalcAux_depth (d : ℕ) : ∀ (t : MerkleTree F) (i : ℕ),
    (MerkleTree.recalcAux t i d).depth = t.depth := by
  induction d with
  | zero => intro t i; rfl
  | succ d ih => intro t i; exact ih _ _

theorem recalcAux_params (d : ℕ) : ∀ (t : MerkleTree F) (i : ℕ),
    (MerkleTree.recalcAux t i d).hasher.params = t.hasher.params := by
  induction d with
  | zero => intro t i; rfl
  | succ d ih => intro t i; exact ih _ _

theorem recalcAux_round (d : ℕ) : ∀ (t : MerkleTree F) (i : ℕ), t.hasher.round = 0 →
    (MerkleTree.recalcAux t i d).hasher.round = 0 := by
  induction d with
  | zero => intro t i hr; exact hr
  | succ d ih =>
    intro t i _
    exact ih (((t.hash_couple (d + 1) i).2).insertNode (d, i / 2) (t.hash_couple (d + 1) i).1)
      (i / 2) rfl

theorem recalcAux_frame (d : ℕ) : ∀ (t : MerkleTree F) (i l j : ℕ), d ≤ l →
    (MerkleTree.recalcAux t i d).nodes (l, j) = t.nodes (l, j) := by
  induction d with
  | zero => intro t i l j _; rfl
  | succ d ih =>
    intro t i l j hl
    show (MerkleTree.recalcAux _ (i / 2) d).nodes (l, j) = _
    rw [ih _ _ _ _ (by omega)]
    rw [insertNode_nodes_ne _ _ _ _ (by intro hc; cases hc; omega)]

theorem recalcAux_get_node (d : ℕ) (t : MerkleTree F) (i l j : ℕ) (hl : d ≤ l) :
    (MerkleTree.recalcAux t i d).get_node l j = t.get_node l j := by
  unfold MerkleTree.get_node
  rw [recalcAux_frame d t i l j hl, recalcAux_zero]

theorem checkFold_nodes (ws : List (F × Bool)) : ∀ (t : MerkleTree F) (acc : F),
    (MerkleTree.checkFold t acc ws).2.nodes = t.nodes := by
  induction ws with
  | nil => intro t acc; rfl
  | cons e rest ih => intro t acc; exact ih _ _

theorem checkFold_zero (ws : List (F × Bool)) : ∀ (t : MerkleTree F) (acc : F),
    (MerkleTree.checkFold t acc ws).2.zero = t.zero := by
  induction ws with
  | nil => intro t acc; rfl
  | cons e rest ih => intro t acc; exact ih _ _

theorem checkFold_depth (ws : List (F × Bool)) : ∀ (t : MerkleTree F) (acc : F),
    (MerkleTree.checkFold t acc ws).2.depth = t.depth := by
  induction ws with
  | nil => intro t acc; rfl
  | cons e rest ih => intro t acc; exact ih _ _

theorem checkFold_fst (ws : List (F × Bool)) : ∀ (t : MerkleTree F) (acc : F),
    t.hasher.round = 0 →
    (MerkleTree.checkFold t acc ws).1 = foldUp t.hasher.params acc ws := by
  induction ws with
  | nil => intro t acc _; rfl
  | cons e rest ih =>
    intro t acc hr
    obtain ⟨s, b⟩ := e
    have hstep : MerkleTree.checkFold t acc ((s, b) :: rest) =
        MerkleTree.checkFold
          { t with hasher := (t.hasher.hashSt (if b then [acc, s] else [s, acc])).2 }
          ((t.hasher.hashSt (if b then [acc, s] else [s, acc])).1) rest := rfl
    rw [hstep, ih _ _ rfl, hashSt_fst _ _ hr]
    show foldUp t.hasher.params _ rest = foldUp t.hasher.params _ rest
    rcases b with _ | _ <;> rfl

theorem witnessAux_length (t : MerkleTree F) (d : ℕ) :
    ∀ i, (t.witnessAux i d).length = d := by
  induction d with
  | zero => intro i; rfl
  | succ d ih =>
    intro i
    show ((t.get_node (d + 1) (i ^^^ 1), _) :: t.witnessAux ((i ^^^ 1) / 2) d).length = d + 1
    simp [ih]

theorem witnessAux_getD (t : MerkleTree F) (d : ℕ) :
    ∀ i k, k < d → (t.witnessAux i d).getD k (0, false) =
      (t.get_node (d - k) ((i >>> k) ^^^ 1), decide ((i >>> k) % 2 = 0)) := by
  induction d with
  | zero => intro i k hk; omega
  | succ d ih =>
    intro i k hk
    cases k with
    | zero =>
      show ((t.get_node (d + 1) (i ^^^ 1), decide ((i ^^^ 1) % 2 = 1)) ::
          t.witnessAux ((i ^^^ 1) / 2) d).getD 0 (0, false) = _
      rw [List.getD_cons_zero]
      rw [Nat.shiftRight_zero, Nat.sub_zero]
      rw [decide_eq_decide.mpr (xor_one_mod_two i)]
    | succ k =>
      show ((t.get_node (d + 1) (i ^^^ 1), decide ((i ^^^ 1) % 2 = 1)) ::
          t.witnessAux ((i ^^^ 1) / 2) d).getD (k + 1) (0, false) = _
      rw [List.getD_cons_succ]
      rw [ih ((i ^^^ 1) / 2) k (by omega)]
      rw [xor_one_div_two]
      have hsh : (i / 2) >>> k = i >>> (k + 1) := by
        simp only [Nat.shiftRight_eq_div_pow]
        rw [Nat.div_div_eq_div_mul]
        congr 1
        rw [pow_succ]
        ring
      rw [hsh]
      rw [show d + 1 - (k + 1) = d - k from by omega]

theorem witnessAux_hasher (t : MerkleTree F) (h : PoseidonHasher F) (d : ℕ) :
    ∀ i, MerkleTree.witnessAux { t with hasher := h } i d = t.witnessAux i d := by
  induction d with
  | zero => intro i; rfl
  | succ d ih =>
    intro i
    show (_, _) :: MerkleTree.witnessAux { t with hasher := h } ((i ^^^ 1) / 2) d =
      (_, _) :: t.witnessAux ((i ^^^ 1) / 2) d
    rw [ih]
    rfl

/-- Counterexample to C2 as stated: on a concrete depth-2 tree, the witness
of leaf 0 carries `true` bits although every node on the path of leaf 0 is a
left child (`0 >>> k` is even), so the bit is *not* `true iff the node is a
right child`. -/
theorem witness_bit_claim_refuted :
    ¬ ∀ k, k < tZ.depth →
        ((tZ.witness 0).getD k (0, false)).2 = decide ((0 >>> k) % 2 = 1) := by
  decide

/-- Claim C2 (corrected): `witness(leaf_index)` returns a `depth`-long list
ordered from the leaf level upward whose entry for level `k` is the pair
(value of the sibling `(leaf_index >> k) ^ 1` at that level, position bit);
the stored bit is `true` iff the node on the path is a *left* child, i.e. iff
the sibling is on the right (the opposite of the claimed convention). -/
theorem witness_structure (t : MerkleTree F) (i : ℕ) (hd : 1 ≤ t.depth)
    (hi : i < 2 ^ t.depth) :
    (t.witness i).length = t.depth ∧
    ∀ k, k < t.depth →
      (t.witness i).getD k (0, false) =
        (t.get_node (t.depth - k) ((i >>> k) ^^^ 1), decide ((i >>> k) % 2 = 0)) :=
  ⟨witnessAux_length t t.depth i, fun k hk => witnessAux_getD t t.depth i k hk⟩

/-- Witness for C2: the corrected witness entry at the leaf level of a
concrete tree and index. -/
theorem witness_structure_witness :
    (tZ.witness 1).getD 0 (0, false) =
      (tZ.get_node (tZ.depth - 0) ((1 >>> 0) ^^^ 1), decide ((1 >>> 0) % 2 = 0)) :=
  (witness_structure tZ 1 (by decide) (by decide)).2 0 (by decide)

/-- Claim C10 (confirmed): the read-style operations leave the stored node
map, the depth and the zero-chain unchanged.  `check_inclusion` (which takes
the tree by `&mut` and advances its hasher) preserves all three components,
hence every `get_node` read and the root; `witness` and `root` perform no
writes at all — they are functions of the stored data only, insensitive to
the hasher component. -/
theorem read_ops_preserve_tree [DecidableEq F] (t : MerkleTree F) (w : List (F × Bool))
    (i : ℕ) (v : F) :
    ((t.check_inclusion w i v).2.nodes = t.nodes ∧
      (t.check_inclusion w i v).2.depth = t.depth ∧
      (t.check_inclusion w i v).2.zero = t.zero) ∧
    (∀ l j, (t.check_inclusion w i v).2.get_node l j = t.get_node l j) ∧
    (t.check_inclusion w i v).2.root = t.root ∧
    (∀ h, MerkleTree.witness { t with hasher := h } i = t.witness i) ∧
    (∀ h, MerkleTree.root { t with hasher := h } = t.root) := by
  have hnodes : (t.check_inclusion w i v).2.nodes = t.nodes := by
    unfold MerkleTree.check_inclusion
    dsimp only
    split
    · exact checkFold_nodes w _ _
    · rfl
  have hdepth : (t.check_inclusion w i v).2.depth = t.depth := by
    unfold MerkleTree.check_inclusion
    dsimp only
    split
    · exact checkFold_depth w _ _
    · rfl
  have hzero : (t.check_inclusion w i v).2.zero = t.zero := by
    unfold MerkleTree.check_inclusion
    dsimp only
    split
    · exact checkFold_zero w _ _
    · rfl
  have hget : ∀ l j, (t.check_inclusion w i v).2.get_node l j = t.get_node l j := by
    intro l j
    unfold MerkleTree.get_node
    rw [hnodes, hzero]
  refine ⟨⟨hnodes, hdepth, hzero⟩, hget, hget 0 0, ?_, fun h => rfl⟩
  intro h
  unfold MerkleTree.witness
  show MerkleTree.witnessAux { t with hasher := h } i t.depth = _
  rw [witnessAux_hasher]

theorem zeroChainAux_fst (n : ℕ) : ∀ (h : PoseidonHasher F) (last : F), h.round = 0 →
    (zeroChainAux h last n).1 = chainList h.params last n := by
  induction n with
  | zero => intro h last _; rfl
  | succ n ih =>
    intro h last hr
    have hstep : zeroChainAux h last (n + 1) =
        ((h.hashSt [last, last]).1 :: (zeroChainAux (h.hashSt [last, last]).2
          (h.hashSt [last, last]).1 n).1,
          (zeroChainAux (h.hashSt [last, last]).2 (h.hashSt [last, last]).1 n).2) := rfl
    rw [hstep]
    show _ :: _ = chainList h.params last (n + 1)
    rw [ih _ _ rfl]
    rw [hashSt_fst _ _ hr]
    rfl

theorem chainList_eq_map (P : PoseidonParams F) (n : ℕ) :
    ∀ m, chainList P (zeroIter P m) n =
      (List.range n).map fun k => zeroIter P (m + k + 1) := by
  induction n with
  | zero => intro m; rfl
  | succ n ih =>
    intro m
    show zeroIter P (m + 1) :: chainList P (zeroIter P (m + 1)) n = _
    rw [ih (m + 1)]
    rw [List.range_succ_eq_map]
    rw [List.map_cons, List.map_map]
    congr 1
    exact List.map_congr_left fun k _ => by congr 1; omega

theorem empty_zero_list (h : PoseidonHasher F) (d : ℕ) (hr : h.round = 0) :
    (MerkleTree.empty h d).zero = ((List.range (d + 1)).map (zeroIter h.params)).reverse := by
  show ((0 : F) :: (zeroChainAux h 0 d).1).reverse = _
  rw [zeroChainAux_fst d h 0 hr]
  congr 1
  rw [show (0 : F) = zeroIter h.params 0 from rfl, chainList_eq_map h.params d 0]
  rw [List.range_succ_eq_map, List.map_cons, List.map_map]
  congr 1
  exact List.map_congr_left fun k _ => by congr 1; omega

theorem reverse_map_range_getD (f : ℕ → F) (n l : ℕ) (hl : l < n) :
    (((List.range n).map f).reverse).getD l 0 = f (n - 1 - l) := by
  have hlen : (((List.range n).map f).reverse).length = n := by simp
  rw [List.getD_eq_getElem _ _ (by omega)]
  rw [List.getElem_reverse]
  simp

/-- Claim C9 (confirmed): a freshly constructed depth-`d` tree stores no
nodes, every absent node at level `L` implicitly takes the zero-chain value
`zero[L]` (with `zero[d] = 0` and `zero[i] = H(zero[i+1], zero[i+1])`, i.e.
`zeroIter (d - L)`), and in particular the root — the node at `(0, 0)` —
equals `zero[0] = zeroIter d`. -/
theorem empty_tree_zero_chain (h : PoseidonHasher F) (d : ℕ) (hr : h.round = 0)
    (hd : 1 ≤ d) :
    (MerkleTree.empty h d).root = zeroIter h.params d ∧
    ∀ l i, l ≤ d → (MerkleTree.empty h d).get_node l i = zeroIter h.params (d - l) := by
  have hget : ∀ l i, l ≤ d →
      (MerkleTree.empty h d).get_node l i = zeroIter h.params (d - l) := by
    intro l i hl
    show (((MerkleTree.empty h d).nodes (l, i)).getD ((MerkleTree.empty h d).zero.getD l 0)) =
      _
    have hnone : (MerkleTree.empty h d).nodes (l, i) = none := rfl
    rw [hnone, Option.getD_none, empty_zero_list h d hr,
      reverse_map_range_getD (zeroIter h.params) (d + 1) l (by omega)]
    congr 1
  exact ⟨hget 0 0 (by omega), hget⟩

/-- Witness for C9: the implicit value of an absent node of the concrete
empty depth-2 tree. -/
theorem empty_tree_zero_chain_witness :
    (MerkleTree.empty hZ 2).get_node 1 3 = zeroIter hZ.params (2 - 1) :=
  (empty_tree_zero_chain hZ 2 rfl (by decide)).2 1 3 (by decide)

theorem recalc_foldUp (d : ℕ) :
    ∀ (t : MerkleTree F) (i : ℕ) (acc : F), t.hasher.round = 0 → i < 2 ^ d →
      t.get_node d i = acc →
      foldUp t.hasher.params acc ((MerkleTree.recalcAux t i d).witnessAux i d) =
        (MerkleTree.recalcAux t i d).root := by
  induction d with
  | zero =>
    intro t i acc hr hi hacc
    have h1 : (2 : ℕ) ^ 0 = 1 := rfl
    have hi0 : i = 0 := by omega
    subst hi0
    show acc = t.get_node 0 0
    rw [hacc]
  | succ d ih =>
    intro t i acc hr hi hacc
    have h2d : (2 : ℕ) ^ (d + 1) = 2 * 2 ^ d := by rw [pow_succ]; ring
    have hstep : MerkleTree.recalcAux t i (d + 1) =
        MerkleTree.recalcAux
          (((t.hash_couple (d + 1) i).2).insertNode (d, i / 2) (t.hash_couple (d + 1) i).1)
          (i / 2) d := rfl
    rw [hstep]
    set t2 := ((t.hash_couple (d + 1) i).2).insertNode (d, i / 2) (t.hash_couple (d + 1) i).1
      with ht2
    set T := MerkleTree.recalcAux t2 (i / 2) d with hT
    have hwit : T.witnessAux i (d + 1) =
        (T.get_node (d + 1) (i ^^^ 1), decide ((i ^^^ 1) % 2 = 1)) ::
          T.witnessAux ((i ^^^ 1) / 2) d := rfl
    rw [hwit, xor_one_div_two]
    have hfold : ∀ (a sib : F) (bbit : Bool) (rest : List (F × Bool)),
        foldUp t.hasher.params a ((sib, bbit) :: rest) =
          foldUp t.hasher.params
            (if bbit then poseidonHash t.hasher.params [a, sib]
             else poseidonHash t.hasher.params [sib, a]) rest :=
      fun _ _ _ _ => rfl
    rw [hfold]
    have hsib : T.get_node (d + 1) (i ^^^ 1) = t.get_node (d + 1) (i ^^^ 1) := by
      rw [hT, recalcAux_get_node d t2 (i / 2) (d + 1) (i ^^^ 1) (by omega)]
      show (t2.nodes (d + 1, i ^^^ 1)).getD (t2.zero.getD (d + 1) 0) = _
      rw [ht2, insertNode_nodes_ne _ _ _ _ (by intro hc; injection hc with hc1 hc2; omega)]
      rfl
    have hv_eq : (t.hash_couple (d + 1) i).1 =
        poseidonHash t.hasher.params
          [t.get_node (d + 1) (2 * (i / 2)), t.get_node (d + 1) (2 * (i / 2) + 1)] :=
      hash_couple_fst t (d + 1) i hr
    have hacc1 :
        (if decide ((i ^^^ 1) % 2 = 1) then
            poseidonHash t.hasher.params [acc, T.get_node (d + 1) (i ^^^ 1)]
          else poseidonHash t.hasher.params [T.get_node (d + 1) (i ^^^ 1), acc]) =
          (t.hash_couple (d + 1) i).1 := by
      rcases Nat.mod_two_eq_zero_or_one i with hpar | hpar
      · have hbit : decide ((i ^^^ 1) % 2 = 1) = true :=
          decide_eq_true ((xor_one_mod_two i).mpr hpar)
        rw [hbit, if_pos rfl, hsib, ← hacc, hv_eq, xor_one_of_even hpar,
          show 2 * (i / 2) = i from by omega]
      · have hbit : decide ((i ^^^ 1) % 2 = 1) = false := by
          rw [decide_eq_false_iff_not]
          intro hc
          have := (xor_one_mod_two i).mp hc
          omega
        rw [hbit, if_neg (by simp), hsib, ← hacc, hv_eq, xor_one_of_odd hpar,
          show 2 * (i / 2) + 1 = i from by omega]
    rw [hacc1]
    have hround2 : t2.hasher.round = 0 := rfl
    have hi2 : i / 2 < 2 ^ d := by omega
    have hacc2 : t2.get_node d (i / 2) = (t.hash_couple (d + 1) i).1 :=
      insertNode_get_same _ _ _
    exact ih t2 (i / 2) ((t.hash_couple (d + 1) i).1) hround2 hi2 hacc2

/-- Counterexample to C3 as stated: on a concrete depth-2 tree, after
`update(1, 3)` the call `check_inclusion(witness(1), 1, 3)` does *not* return
true — `check_inclusion` hashes its `data` argument once before comparing, so
its `assert!` fails (the stored leaf is the raw `3`, not `hash([3])`),
modelled as `none`. -/
theorem update_check_raw_refuted :
    ((tZ.update 1 3).check_inclusion ((tZ.update 1 3).witness 1) 1 3).1 = none := by
  decide

/-- Claim C3 (corrected): `check_inclusion` first hashes its `data` argument
(`acc = hash([data])`) and `assert!`s the stored leaf equals that hash, so
the update/check round trip holds for the *hashed* leaf — exactly what
`insert` stores: for every tree of depth at least 1 and index below
`2^depth`, after `update(i, hash([v]))` the call
`check_inclusion(witness(i), i, v)` returns `true`. -/
theorem update_check_inclusion [DecidableEq F] (t : MerkleTree F) (i : ℕ) (v : F)
    (hd : 1 ≤ t.depth) (hr : t.hasher.round = 0) (hi : i < 2 ^ t.depth) :
    ((t.update i (poseidonHash t.hasher.params [v])).check_inclusion
        ((t.update i (poseidonHash t.hasher.params [v])).witness i) i v).1 = some true := by
  set P := t.hasher.params with hP
  set L := poseidonHash P [v] with hL
  set t0 := t.insertNode (t.depth, i) L with ht0
  have hupd : t.update i L = MerkleTree.recalcAux t0 i t.depth := rfl
  rw [hupd]
  set t1 := MerkleTree.recalcAux t0 i t.depth with ht1
  have hr1 : t1.hasher.round = 0 := recalcAux_round t.depth t0 i hr
  have hp1 : t1.hasher.params = P := recalcAux_params t.depth t0 i
  have hacc : (t1.hasher.hashSt [v]).1 = L := by
    rw [hashSt_fst _ _ hr1, hp1]
  have hleaf : t1.get_node t.depth i = L := by
    rw [ht1, recalcAux_get_node t.depth t0 i t.depth i (le_refl _)]
    exact insertNode_get_same t (t.depth, i) L
  have hdep : t1.depth = t.depth := recalcAux_depth t.depth t0 i
  have hcond : MerkleTree.get_node { t1 with hasher := (t1.hasher.hashSt [v]).2 } t1.depth i =
      (t1.hasher.hashSt [v]).1 := by
    show t1.get_node t1.depth i = _
    rw [hacc, hdep, hleaf]
  have hmain : t1.check_inclusion (t1.witness i) i v =
      (some (decide ((MerkleTree.checkFold { t1 with hasher := (t1.hasher.hashSt [v]).2 }
          ((t1.hasher.hashSt [v]).1) (t1.witness i)).1 =
        (MerkleTree.checkFold { t1 with hasher := (t1.hasher.hashSt [v]).2 }
          ((t1.hasher.hashSt [v]).1) (t1.witness i)).2.root)),
       (MerkleTree.checkFold { t1 with hasher := (t1.hasher.hashSt [v]).2 }
          ((t1.hasher.hashSt [v]).1) (t1.witness i)).2) := by
    unfold MerkleTree.check_inclusion
    dsimp only
    rw [if_pos hcond]
  have hw : t1.witness i = t1.witnessAux i t.depth := by
    show t1.witnessAux i t1.depth = t1.witnessAux i t.depth
    rw [hdep]
  have haccF : (MerkleTree.checkFold { t1 with hasher := (t1.hasher.hashSt [v]).2 }
      ((t1.hasher.hashSt [v]).1) (t1.witness i)).1 = foldUp P L (t1.witness i) := by
    rw [checkFold_fst _ _ _ rfl, hacc]
    rw [show ({ t1 with hasher := (t1.hasher.hashSt [v]).2 } : MerkleTree F).hasher.params = P
      from hp1]
  have hroot2 : (MerkleTree.checkFold { t1 with hasher := (t1.hasher.hashSt [v]).2 }
      ((t1.hasher.hashSt [v]).1) (t1.witness i)).2.root = t1.root := by
    show MerkleTree.get_node _ 0 0 = t1.get_node 0 0
    unfold MerkleTree.get_node
    rw [checkFold_nodes, checkFold_zero]
  have hfinal : foldUp P L (t1.witness i) = t1.root := by
    rw [hw]
    exact recalc_foldUp t.depth t0 i L hr hi (insertNode_get_same t (t.depth, i) L)
  rw [hmain]
  show some (decide _) = some true
  congr 1
  rw [haccF, hroot2]
  exact decide_eq_true hfinal

/-- Witness for C3: the corrected round trip evaluated on a concrete depth-2
tree over `ZMod 7`, index 1 and raw leaf value 2. -/
theorem update_check_inclusion_witness :
    ((tZ.update 1 (poseidonHash tZ.hasher.params [2])).check_inclusion
        ((tZ.update 1 (poseidonHash tZ.hasher.params [2])).witness 1) 1 2).1 = some true :=
  update_check_inclusion tZ 1 2 (by decide) (by decide) (by decide)
